import Mathlib

/-!
Verification development for the multi-query retrieval notebook.

The notebook's own code contributes a metadata-extraction callback
(`metadata_func`), a text-splitter configuration, and a document-combination
function (`_combine_documents`); those are embedded here directly from the
source.  The retrieval-fusion pipeline (query expansion, per-query retrieval,
result fusion, bounded context assembly) is delegated to library calls in the
notebook, so its components are modelled from the specification text and
marked as such in their doc comments.
-/

/- ### Embedding of the notebook's own code -/

/-- A loaded document chunk: its text content together with the source name
recorded in its metadata, the two fields consumed by the document prompt. -/
structure Document where
  page_content : String
  name : String
deriving DecidableEq, Repr

/-- The document prompt template rendered with a source name and page content
substituted for its two placeholders. -/
def renderDocumentPrompt (name content : String) : String :=
  "\n---\nSOURCE: " ++ name ++ "\n" ++ content ++ "\n---\n"

/-- Embedding of `format_document doc LLM_DOCUMENT_PROMPT`: render one
document through the document prompt. -/
def format_document (d : Document) : String :=
  renderDocumentPrompt d.name d.page_content

/-- The fixed separator placed between rendered documents
(the `document_separator` default argument of `_combine_documents`). -/
def document_separator : String := "\n\n"

/-- Embedding of the notebook's `_combine_documents`, specialised at its
default arguments: render every document through the document prompt and
join the renderings with the separator. -/
def _combine_documents (docs : List Document) : String :=
  String.intercalate document_separator (docs.map format_document)

/-- The combination described independently of `String.intercalate`: the
concatenation, joined by the separator, of every input document rendered
through the document prompt, in the input order; the empty list yields the
empty string. -/
def combineDocumentsSpec : List Document → String
  | [] => ""
  | [d] => format_document d
  | d :: rest => format_document d ++ document_separator ++ combineDocumentsSpec rest

/-- A raw ingested record, with each field optional (absent key in the JSON
object modelled as `none`; Python's falsy empty string is kept distinct as
`some ""`). -/
structure IngestRecord where
  name : Option String
  url : Option String
  category : Option String
  updated_at : Option String
deriving DecidableEq, Repr

/-- The metadata dictionary produced by the metadata-extraction callback. -/
structure PassageMetadata where
  name : String
  url : String
  category : String
  updated_at : String
deriving DecidableEq, Repr

/-- Embedding of the notebook's `metadata_func`.  The Python guard
`if updated_at and updated_at != "N/A"` treats both a missing value and an
empty string as falsy, so the sentinel is used for missing, empty and
`"N/A"` values alike. -/
def metadata_func (record : IngestRecord) : PassageMetadata :=
  { name := record.name.getD "Unknown Name"
    url := record.url.getD "N/A"
    category := record.category.getD "Uncategorized"
    updated_at :=
      match record.updated_at with
      | some s => if s ≠ "" ∧ s ≠ "N/A" then s else "1970-01-01"
      | none => "1970-01-01" }

/-- The `chunk_size` argument passed to the text splitter in both ingestion
cells of the notebook. -/
def text_splitter_chunk_size : Nat := 808

/-- The `chunk_overlap` argument passed to the text splitter in both
ingestion cells of the notebook. -/
def text_splitter_chunk_overlap : Nat := 400

/- ### Modelled retrieval-fusion pipeline -/

/-- Modelled from the spec: a retrieved passage, identified by a stable
identifier, carrying its text, source metadata and the similarity score
relative to the query that retrieved it. -/
structure Passage where
  pid : String
  text : String
  name : String
  url : String
  category : String
  updated_at : String
  score : ℚ
deriving DecidableEq, Repr

/-- The scores of all occurrences of the identifier `x` in a passage list. -/
def occScores (x : String) (l : List Passage) : List ℚ :=
  (l.filter (fun p => p.pid == x)).map Passage.score

/-- Modelled from the spec: the best (maximum) relevance score of `p` across
its own score and every later occurrence of its identifier. -/
def mergeScores (p : Passage) (rest : List Passage) : ℚ :=
  (occScores p.pid rest).foldl max p.score

/-- Modelled from the spec: deduplicate a flattened result list, keeping for
each identifier its first-seen instance with the merged (maximum) score over
all occurrences; `seen` holds the identifiers already emitted. -/
def mergeAllGo (seen : List String) : List Passage → List Passage
  | [] => []
  | p :: rest =>
    if p.pid ∈ seen then mergeAllGo seen rest
    else { p with score := mergeScores p rest } :: mergeAllGo (p.pid :: seen) rest

/-- Modelled from the spec: merge with deduplication, keeping first-seen
order and recording the best score per identifier. -/
def mergeAll (l : List Passage) : List Passage := mergeAllGo [] l

/-- The ordering used for the fused result: `a` precedes `b` when `a`'s
merged score is at least `b`'s (descending by score). -/
def scoreGE (a b : Passage) : Prop := b.score ≤ a.score

instance : DecidableRel scoreGE :=
  fun a b => inferInstanceAs (Decidable (b.score ≤ a.score))

instance : IsTotal Passage scoreGE := ⟨fun a b => le_total b.score a.score⟩

instance : IsTrans Passage scoreGE := ⟨fun _ _ _ h1 h2 => le_trans h2 h1⟩

/-- Stable sort of passages by descending merged score. -/
def sortByScore (l : List Passage) : List Passage := List.insertionSort scoreGE l

/-- Modelled from the spec: the fatal error raised when every retrieval call
fails. -/
inductive FusionError where
  | fusionError
deriving DecidableEq, Repr

/-- The passages of the succeeding retrieval calls only, concatenated in
query order (a failed call contributes nothing). -/
def collect (outcomes : List (Option (List Passage))) : List Passage :=
  (outcomes.filterMap id).flatten

/-- Modelled from the spec: the Result Fuser.  One `retrieve` call is issued
per query (`none` models a call that failed with a retrieval error); if all
calls fail the fuser fails with `FusionError`, otherwise the succeeding
calls' results are flattened in query order, deduplicated with merged
maximum scores, and sorted by descending score with stable first-seen
tie-break. -/
def fuse (retrieve : String → Option (List Passage)) (queries : List String) :
    Except FusionError (List Passage) :=
  if (queries.map retrieve).all Option.isNone then
    Except.error FusionError.fusionError
  else
    Except.ok (sortByScore (mergeAll (collect (queries.map retrieve))))

/- ### Modelled query expansion -/

/-- Modelled from the spec: the error raised for a question that is empty
after trimming. -/
inductive ExpandError where
  | invalidInput
deriving DecidableEq, Repr

/-- Trim leading and trailing whitespace from a character list. -/
def trimChars (cs : List Char) : List Char :=
  ((cs.dropWhile Char.isWhitespace).reverse.dropWhile Char.isWhitespace).reverse

/-- Trim leading and trailing whitespace from a string. -/
def trimString (s : String) : String := String.mk (trimChars s.toList)

/-- Split a character list into newline-separated lines; `cur` accumulates
the current line in reverse. -/
def splitLinesAux : List Char → List Char → List String
  | cur, [] => [String.mk cur.reverse]
  | cur, c :: rest =>
    if c = '\n' then String.mk cur.reverse :: splitLinesAux [] rest
    else splitLinesAux (c :: cur) rest

/-- Split a string into newline-separated lines. -/
def splitLines (s : String) : List String := splitLinesAux [] s.toList

/-- Modelled from the spec: strip list numbering from one line of the
generative response: leading whitespace, digits, one numbering delimiter,
and surrounding whitespace. -/
def stripNumberingChars (cs : List Char) : List Char :=
  let t1 := cs.dropWhile Char.isWhitespace
  let t2 := t1.dropWhile Char.isDigit
  let t3 := match t2 with
    | '.' :: r => r
    | ')' :: r => r
    | _ => t2
  trimChars t3

/-- Strip list numbering from one line of the generative response. -/
def stripNumbering (s : String) : String := String.mk (stripNumberingChars s.toList)

/-- Modelled from the spec: the line-oriented numbered-list parse of the
generative capability's free-text response; `none` models a parse failure
(no query line survives). -/
def parseQueries (response : String) : Option (List String) :=
  let parsed := ((splitLines response).map stripNumbering).filter (fun line => line != "")
  if parsed.isEmpty then none else some parsed

/-- Modelled from the spec: the Query Expander.  The free-text `response` of
the generative capability is an explicit argument (a call-level failure is
outside this model); an input empty after trimming fails with
`ExpandError.invalidInput`, a parse failure falls back to the original
question, and at most `n` parsed queries are returned. -/
def expand (question : String) (n : Nat) (response : String) :
    Except ExpandError (List String) :=
  if trimString question = "" then Except.error ExpandError.invalidInput
  else
    match parseQueries response with
    | none => Except.ok [question]
    | some qs => Except.ok (qs.take n)

/- ### Modelled context assembly -/

/-- Modelled from the spec: render one passage with the fixed template
carrying its source name and text. -/
def renderPassage (p : Passage) : String := renderDocumentPrompt p.name p.text

/-- Modelled from the spec: greedy inclusion loop of the Context Assembler.
`acc` already holds at least one rendered passage; each further passage is
appended (preceded by the separator) only while the result stays within
`maxChars`, and the loop stops at the first passage that would overflow. -/
def assembleGo (maxChars : Nat) : List Passage → String → String
  | [], acc => acc
  | p :: rest, acc =>
    if (acc ++ document_separator ++ renderPassage p).length ≤ maxChars then
      assembleGo maxChars rest (acc ++ document_separator ++ renderPassage p)
    else acc

/-- Modelled from the spec: the Context Assembler.  Passages are included
greedily in the given order, a passage that would push the output past
`maxChars` is dropped whole and stops the inclusion, and a first passage
that alone exceeds the budget yields the empty string. -/
def assemble (passages : List Passage) (maxChars : Nat) : String :=
  match passages with
  | [] => ""
  | p :: rest =>
    if (renderPassage p).length ≤ maxChars then
      assembleGo maxChars rest (renderPassage p)
    else ""

/-- The rendering of a non-first passage run: separator plus rendered
passage, for each passage in turn. -/
def renderTail : List Passage → String
  | [] => ""
  | p :: rest => document_separator ++ renderPassage p ++ renderTail rest

/-- The full rendering of an ordered passage list: first passage, then each
further passage preceded by the separator. -/
def renderList : List Passage → String
  | [] => ""
  | p :: rest => renderPassage p ++ renderTail rest

/-- Extending an already-rendered block by further passages, each preceded
by the separator (the shape of `assembleGo`'s accumulator). -/
def extendS (acc : String) (l : List Passage) : String :=
  l.foldl (fun a p => a ++ document_separator ++ renderPassage p) acc

/- ### Sample data for concrete witnesses -/

/-- A sample passage with identifier A and score 3. -/
def pA : Passage := ⟨"A", "text a", "src a", "url a", "cat a", "2020-01-01", 3⟩

/-- A second retrieval of identifier A, with a higher score 5. -/
def pA2 : Passage := ⟨"A", "text a again", "src a", "url a", "cat a", "2020-01-01", 5⟩

/-- A sample passage with identifier B and score 4. -/
def pB : Passage := ⟨"B", "text b", "src b", "url b", "cat b", "2021-01-01", 4⟩

/-- A sample retriever: query q1 returns A and B, query q2 returns A again
with a better score, every other query fails. -/
def retrieveSample : String → Option (List Passage) :=
  fun q => if q = "q1" then some [pA, pB] else if q = "q2" then some [pA2] else none

/-- The first-seen instance of identifier A carrying the merged best score. -/
def pAmerged : Passage := ⟨"A", "text a", "src a", "url a", "cat a", "2020-01-01", 5⟩

/- ### Helper lemmas: folded maxima -/

theorem le_foldl_max (s : ℚ) (l : List ℚ) : s ≤ l.foldl max s := by
  induction l generalizing s with
  | nil => exact le_refl s
  | cons x t ih => exact le_trans (le_max_left s x) (ih (max s x))

theorem mem_le_foldl_max (s : ℚ) (l : List ℚ) : ∀ x ∈ l, x ≤ l.foldl max s := by
  induction l generalizing s with
  | nil => intro x hx; cases hx
  | cons y t ih =>
    intro x hx
    rcases List.mem_cons.mp hx with h | h
    · subst h
      exact le_trans (le_max_right s x) (le_foldl_max (max s x) t)
    · exact ih (max s y) x h

theorem foldl_max_mem (s : ℚ) (l : List ℚ) : l.foldl max s = s ∨ l.foldl max s ∈ l := by
  induction l generalizing s with
  | nil => exact Or.inl rfl
  | cons x t ih =>
    rcases ih (max s x) with h | h
    · rcases max_cases s x with ⟨he, _⟩ | ⟨he, _⟩
      · exact Or.inl (by rw [List.foldl_cons, h, he])
      · refine Or.inr ?_
        rw [List.foldl_cons, h, he]
        exact List.mem_cons_self x t
    · exact Or.inr (List.mem_cons_of_mem x h)

/- ### Helper lemmas: occurrence scores and merging -/

theorem occScores_cons (x : String) (p : Passage) (rest : List Passage) :
    occScores x (p :: rest) =
      if p.pid = x then p.score :: occScores x rest else occScores x rest := by
  by_cases h : p.pid = x <;> simp [occScores, List.filter_cons, h]

theorem pid_mem_mergeAllGo (l : List Passage) :
    ∀ (seen : List String) (x : String),
      x ∈ (mergeAllGo seen l).map Passage.pid ↔ x ∉ seen ∧ x ∈ l.map Passage.pid := by
  induction l with
  | nil => intro seen x; simp [mergeAllGo]
  | cons p rest ih =>
    intro seen x
    by_cases hs : p.pid ∈ seen
    · rw [mergeAllGo, if_pos hs, ih seen x]
      simp only [List.map_cons, List.mem_cons]
      constructor
      · rintro ⟨h1, h2⟩
        exact ⟨h1, Or.inr h2⟩
      · rintro ⟨h1, h2 | h2⟩
        · exact absurd (h2 ▸ hs) h1
        · exact ⟨h1, h2⟩
    · rw [mergeAllGo, if_neg hs]
      simp only [List.map_cons, List.mem_cons, ih (p.pid :: seen) x]
      constructor
      · rintro (h | ⟨h1, h2⟩)
        · exact ⟨h ▸ hs, Or.inl h⟩
        · exact ⟨fun hx => h1 (Or.inr hx), Or.inr h2⟩
      · rintro ⟨h1, h2 | h2⟩
        · exact Or.inl h2
        · by_cases he : x = p.pid
          · exact Or.inl he
          · refine Or.inr ⟨?_, h2⟩
            rintro (h3 | h3)
            · exact he h3
            · exact h1 h3

theorem nodup_pid_mergeAllGo (l : List Passage) :
    ∀ seen : List String, ((mergeAllGo seen l).map Passage.pid).Nodup := by
  induction l with
  | nil => intro seen; simp [mergeAllGo]
  | cons p rest ih =>
    intro seen
    by_cases hs : p.pid ∈ seen
    · rw [mergeAllGo, if_pos hs]
      exact ih seen
    · rw [mergeAllGo, if_neg hs]
      rw [List.map_cons, List.nodup_cons]
      refine ⟨?_, ih (p.pid :: seen)⟩
      intro hmem
      exact ((pid_mem_mergeAllGo rest (p.pid :: seen) _).mp hmem).1 (List.mem_cons_self _ _)

theorem score_mergeAllGo (l : List Passage) :
    ∀ seen : List String, ∀ q ∈ mergeAllGo seen l,
      q.score ∈ occScores q.pid l ∧ ∀ s ∈ occScores q.pid l, s ≤ q.score := by
  induction l with
  | nil => intro seen q hq; simp [mergeAllGo] at hq
  | cons p rest ih =>
    intro seen q hq
    by_cases hs : p.pid ∈ seen
    · rw [mergeAllGo, if_pos hs] at hq
      have hqpid : ¬ p.pid = q.pid := by
        intro he
        have hmem : q.pid ∈ (mergeAllGo seen rest).map Passage.pid :=
          List.mem_map_of_mem Passage.pid hq
        exact ((pid_mem_mergeAllGo rest seen q.pid).mp hmem).1 (he ▸ hs)
      rw [occScores_cons, if_neg hqpid]
      exact ih seen q hq
    · rw [mergeAllGo, if_neg hs] at hq
      rcases List.mem_cons.mp hq with hq1 | hq2
      · subst hq1
        rw [occScores_cons, if_pos rfl]
        constructor
        · show mergeScores p rest ∈ p.score :: occScores p.pid rest
          rcases foldl_max_mem p.score (occScores p.pid rest) with h | h
          · rw [mergeScores, h]; exact List.mem_cons_self _ _
          · exact List.mem_cons_of_mem _ h
        · intro s hsmem
          rcases List.mem_cons.mp hsmem with h | h
          · rw [h]; exact le_foldl_max p.score (occScores p.pid rest)
          · exact mem_le_foldl_max p.score (occScores p.pid rest) s h
      · have hqpid : ¬ p.pid = q.pid := by
          intro he
          have hmem : q.pid ∈ (mergeAllGo (p.pid :: seen) rest).map Passage.pid :=
            List.mem_map_of_mem Passage.pid hq2
          exact ((pid_mem_mergeAllGo rest (p.pid :: seen) q.pid).mp hmem).1
            (he ▸ List.mem_cons_self _ _)
        rw [occScores_cons, if_neg hqpid]
        exact ih (p.pid :: seen) q hq2

theorem pid_mem_mergeAll (l : List Passage) (x : String) :
    x ∈ (mergeAll l).map Passage.pid ↔ x ∈ l.map Passage.pid := by
  rw [mergeAll, pid_mem_mergeAllGo]
  simp

theorem nodup_pid_mergeAll (l : List Passage) : ((mergeAll l).map Passage.pid).Nodup :=
  nodup_pid_mergeAllGo l []

theorem score_mergeAll (l : List Passage) :
    ∀ q ∈ mergeAll l, q.score ∈ occScores q.pid l ∧ ∀ s ∈ occScores q.pid l, s ≤ q.score :=
  score_mergeAllGo l []

/- ### Helper lemmas: stability of the score sort -/

theorem filter_orderedInsert_score (a : Passage) (l : List Passage) (s : ℚ) :
    (List.orderedInsert scoreGE a l).filter (fun p => decide (p.score = s)) =
      if a.score = s then a :: l.filter (fun p => decide (p.score = s))
      else l.filter (fun p => decide (p.score = s)) := by
  induction l with
  | nil =>
    by_cases h : a.score = s <;> simp [List.orderedInsert, List.filter_cons, h]
  | cons b t ih =>
    by_cases hr : scoreGE a b
    · simp only [List.orderedInsert, if_pos hr]
      by_cases h : a.score = s <;> simp [List.filter_cons, h]
    · have hba : a.score < b.score := by
        simpa [scoreGE] using hr
      simp only [List.orderedInsert, if_neg hr]
      by_cases hbs : b.score = s
      · have has : ¬ a.score = s := by
          intro h
          exact absurd (h.trans hbs.symm) (ne_of_lt hba)
        simp [List.filter_cons, hbs, has, ih]
      · simp only [List.filter_cons, hbs, decide_eq_false hbs, ih]
        by_cases h : a.score = s <;> simp [h]

theorem filter_insertionSort_score (l : List Passage) (s : ℚ) :
    (List.insertionSort scoreGE l).filter (fun p => decide (p.score = s)) =
      l.filter (fun p => decide (p.score = s)) := by
  induction l with
  | nil => rfl
  | cons a t ih =>
    rw [List.insertionSort, filter_orderedInsert_score]
    by_cases h : a.score = s
    · rw [if_pos h, ih]
      simp [List.filter_cons, h]
    · rw [if_neg h, ih]
      simp [List.filter_cons, h]

/- ### C1: fused results are deduplicated with merged maximum scores -/

/-- C1: for every retriever behaviour and sequence of queries, when `fuse`
succeeds its result contains no two passages with the same identifier, every
identifier of the flattened per-query results appears exactly once, and each
kept passage carries the maximum relevance score over all occurrences of its
identifier among the contributing queries. -/
theorem fuse_dedup_max_score (retrieve : String → Option (List Passage))
    (queries : List String) (res : List Passage)
    (h : fuse retrieve queries = Except.ok res) :
    (res.map Passage.pid).Nodup ∧
    (∀ x, x ∈ res.map Passage.pid ↔ x ∈ (collect (queries.map retrieve)).map Passage.pid) ∧
    (∀ p ∈ res, p.score ∈ occScores p.pid (collect (queries.map retrieve)) ∧
      ∀ s ∈ occScores p.pid (collect (queries.map retrieve)), s ≤ p.score) := by
  rw [fuse] at h
  by_cases hall : (queries.map retrieve).all Option.isNone
  · rw [if_pos hall] at h
    cases h
  · rw [if_neg hall] at h
    injection h with h
    subst h
    have perm : List.Perm (sortByScore (mergeAll (collect (queries.map retrieve))))
        (mergeAll (collect (queries.map retrieve))) :=
      List.perm_insertionSort scoreGE _
    have permPid := perm.map Passage.pid
    refine ⟨permPid.nodup_iff.mpr (nodup_pid_mergeAll _), ?_, ?_⟩
    · intro x
      exact permPid.mem_iff.trans (pid_mem_mergeAll _ x)
    · intro p hp
      exact score_mergeAll _ p (perm.mem_iff.mp hp)

/-- Concrete instance for C1: identifier A is retrieved by two queries with
scores 3 and 5; the fused result keeps one instance per identifier. -/
theorem fuse_dedup_max_score_witness :
    fuse retrieveSample ["q1", "q2", "q3"] = Except.ok [pAmerged, pB] ∧
      (([pAmerged, pB].map Passage.pid).Nodup) :=
  ⟨rfl, (fuse_dedup_max_score retrieveSample ["q1", "q2", "q3"] [pAmerged, pB] rfl).1⟩

/- ### C2: fused results are sorted with stable first-seen tie-break -/

/-- C2: for every retriever behaviour and sequence of queries, when `fuse`
succeeds its result is sorted by merged relevance score in non-increasing
order, and for every score value the passages carrying that score appear in
exactly their first-seen merged order (iterating queries in their original
order), so ties are broken stably. -/
theorem fuse_sorted_stable (retrieve : String → Option (List Passage))
    (queries : List String) (res : List Passage)
    (h : fuse retrieve queries = Except.ok res) :
    List.Sorted scoreGE res ∧
    ∀ s : ℚ, res.filter (fun p => decide (p.score = s)) =
      (mergeAll (collect (queries.map retrieve))).filter (fun p => decide (p.score = s)) := by
  rw [fuse] at h
  by_cases hall : (queries.map retrieve).all Option.isNone
  · rw [if_pos hall] at h
    cases h
  · rw [if_neg hall] at h
    injection h with h
    subst h
    exact ⟨List.sorted_insertionSort scoreGE _, fun s => filter_insertionSort_score _ s⟩

/-- Concrete instance for C2: the fused result of the sample retriever is
sorted by descending merged score. -/
theorem fuse_sorted_stable_witness :
    fuse retrieveSample ["q1", "q2"] = Except.ok [pAmerged, pB] ∧
      List.Sorted scoreGE [pAmerged, pB] :=
  ⟨rfl, (fuse_sorted_stable retrieveSample ["q1", "q2"] [pAmerged, pB] rfl).1⟩

/- ### C4: partial-failure policy of the fuser -/

/-- C4: for every retriever behaviour and sequence of queries, if at least
one per-query retrieval call succeeds then `fuse` does not fail and builds
its result from the succeeding calls only; if every retrieval call fails
then `fuse` fails with `FusionError`. -/
theorem fuse_partial_failure (retrieve : String → Option (List Passage))
    (queries : List String) :
    ((∃ q ∈ queries, (retrieve q).isSome) →
      fuse retrieve queries =
        Except.ok (sortByScore (mergeAll (((queries.map retrieve).filterMap id).flatten)))) ∧
    ((∀ q ∈ queries, retrieve q = none) →
      fuse retrieve queries = Except.error FusionError.fusionError) := by
  constructor
  · rintro ⟨q, hq, hsome⟩
    have hall : ¬ ((queries.map retrieve).all Option.isNone = true) := by
      rw [List.all_eq_true]
      intro hforall
      have hnone := hforall (retrieve q) (List.mem_map_of_mem retrieve hq)
      rw [Option.isSome_iff_ne_none] at hsome
      exact hsome (Option.isNone_iff_eq_none.mp hnone)
    rw [fuse, if_neg hall]
    rfl
  · intro hnone
    have hall : (queries.map retrieve).all Option.isNone = true := by
      rw [List.all_eq_true]
      intro o ho
      rcases List.mem_map.mp ho with ⟨q, hq, rfl⟩
      rw [hnone q hq]
      rfl
    rw [fuse, if_pos hall]

/-- Concrete instance for C4: with one of two calls succeeding `fuse`
returns the successful call's fused results; with every call failing it
fails with `FusionError`. -/
theorem fuse_partial_failure_witness :
    fuse retrieveSample ["zz", "q2"] =
      Except.ok (sortByScore (mergeAll (((["zz", "q2"].map retrieveSample).filterMap id).flatten))) ∧
    fuse retrieveSample ["zz", "yy"] = Except.error FusionError.fusionError :=
  ⟨(fuse_partial_failure retrieveSample ["zz", "q2"]).1 ⟨"q2", by decide, by decide⟩,
   (fuse_partial_failure retrieveSample ["zz", "yy"]).2 (by decide)⟩

/- ### C5: parse failure falls back to the original question -/

/-- C5: for every question that passes input validation and every expansion
width, if parsing the generative capability's free-text response fails,
`expand` does not raise and returns exactly the one-element sequence holding
the original question. -/
theorem expand_parse_fallback (question : String) (n : Nat) (response : String)
    (hq : ¬ trimString question = "") (hp : parseQueries response = none) :
    expand question n response = Except.ok [question] := by
  rw [expand, if_neg hq, hp]

/-- Concrete instance for C5: a response whose only line is bare numbering
parses to nothing, and `expand` falls back to the original question. -/
theorem expand_parse_fallback_witness :
    parseQueries "123." = none ∧
      expand "what is x" 3 "123." = Except.ok ["what is x"] :=
  ⟨by decide, expand_parse_fallback "what is x" 3 "123." (by decide) (by decide)⟩

/- ### C7: expansion length bounds and input validation -/

/-- C7: for every question non-empty after trimming and every `n ≥ 1`,
`expand` succeeds with between 1 and `n` queries; for every question empty
after trimming, `expand` fails with the invalid-input error. -/
theorem expand_length_bounds (question : String) (n : Nat) (response : String) :
    (¬ trimString question = "" → 1 ≤ n →
      ∃ qs, expand question n response = Except.ok qs ∧ 1 ≤ qs.length ∧ qs.length ≤ n) ∧
    (trimString question = "" →
      expand question n response = Except.error ExpandError.invalidInput) := by
  constructor
  · intro hq hn
    rw [expand, if_neg hq]
    cases hp : parseQueries response with
    | none => exact ⟨[question], rfl, le_refl 1, hn⟩
    | some qs =>
      refine ⟨qs.take n, rfl, ?_, ?_⟩
      · have hne : qs ≠ [] := by
          rw [parseQueries] at hp
          by_cases he :
              (((splitLines response).map stripNumbering).filter (fun line => line != "")).isEmpty
          · rw [if_pos he] at hp
            cases hp
          · rw [if_neg he] at hp
            injection hp with hp
            subst hp
            simpa [List.isEmpty_iff] using he
        have hpos : 1 ≤ qs.length := List.length_pos.mpr hne
        rw [List.length_take]
        exact le_min hn hpos
      · rw [List.length_take]
        exact min_le_left n qs.length
  · intro hq
    rw [expand, if_pos hq]

/-- Concrete instance for C7: a three-line numbered response yields three
queries, and a whitespace-only question is rejected. -/
theorem expand_length_bounds_witness :
    (∃ qs, expand "what is the nasa sales team?" 3 "1. a\n2. b\n3. c" = Except.ok qs ∧
      1 ≤ qs.length ∧ qs.length ≤ 3) ∧
    expand "  " 3 "1. a" = Except.error ExpandError.invalidInput :=
  ⟨(expand_length_bounds "what is the nasa sales team?" 3 "1. a\n2. b\n3. c").1
      (by decide) (by decide),
   (expand_length_bounds "  " 3 "1. a").2 (by decide)⟩

/- ### Helper lemmas: rendering and the greedy assembly loop -/

theorem extendS_nil (acc : String) : extendS acc [] = acc := rfl

theorem extendS_cons (acc : String) (p : Passage) (l : List Passage) :
    extendS acc (p :: l) = extendS (acc ++ document_separator ++ renderPassage p) l := rfl

theorem extendS_renderTail (l : List Passage) :
    ∀ acc : String, extendS acc l = acc ++ renderTail l := by
  induction l with
  | nil =>
    intro acc
    rw [extendS_nil, renderTail, String.append_empty]
  | cons p t ih =>
    intro acc
    rw [extendS_cons, ih, renderTail]
    simp [String.append_assoc]

theorem assembleGo_spec (m : Nat) (l : List Passage) :
    ∀ acc : String, acc.length ≤ m →
      ∃ j, j ≤ l.length ∧ assembleGo m l acc = extendS acc (l.take j) ∧
        (extendS acc (l.take j)).length ≤ m ∧
        (j < l.length → m < (extendS acc (l.take (j + 1))).length) := by
  induction l with
  | nil =>
    intro acc hacc
    exact ⟨0, Nat.le_refl 0, rfl, hacc, fun h => absurd h (by simp)⟩
  | cons p t ih =>
    intro acc hacc
    by_cases hfit : (acc ++ document_separator ++ renderPassage p).length ≤ m
    · obtain ⟨j, hj, heq, hlen, hnext⟩ := ih (acc ++ document_separator ++ renderPassage p) hfit
      refine ⟨j + 1, Nat.succ_le_succ hj, ?_, ?_, ?_⟩
      · simp only [assembleGo, if_pos hfit, List.take_succ_cons, extendS_cons]
        exact heq
      · simp only [List.take_succ_cons, extendS_cons]
        exact hlen
      · intro hlt
        have hlt2 : j < t.length := Nat.lt_of_succ_lt_succ hlt
        simp only [List.take_succ_cons, extendS_cons]
        exact hnext hlt2
    · refine ⟨0, Nat.zero_le _, ?_, ?_, ?_⟩
      · simp only [assembleGo, if_neg hfit, List.take_zero, extendS_nil]
      · simpa [extendS_nil] using hacc
      · intro _
        have h1 : m < (acc ++ document_separator ++ renderPassage p).length :=
          Nat.lt_of_not_le hfit
        simpa [List.take_succ_cons, extendS_cons, extendS_nil] using h1

theorem renderPassage_length_pos (p : Passage) : 0 < (renderPassage p).length := by
  have h : 0 < ("\n---\nSOURCE: " : String).length := by decide
  simp only [renderPassage, renderDocumentPrompt, String.length_append]
  omega

theorem length_le_assembleGo (m : Nat) (l : List Passage) :
    ∀ acc : String, acc.length ≤ (assembleGo m l acc).length := by
  induction l with
  | nil =>
    intro acc
    exact Nat.le_refl _
  | cons p t ih =>
    intro acc
    by_cases hfit : (acc ++ document_separator ++ renderPassage p).length ≤ m
    · simp only [assembleGo, if_pos hfit]
      refine Nat.le_trans ?_ (ih (acc ++ document_separator ++ renderPassage p))
      simp only [String.length_append]
      omega
    · simp only [assembleGo, if_neg hfit]
      exact Nat.le_refl _

/- ### C3: greedy bounded assembly -/

/-- C3: for every ordered passage list and every budget, `assemble` includes
a prefix of whole passages in the given order (never truncating one
partially), stops before the first passage whose addition would exceed the
budget, and its output length never exceeds the budget. -/
theorem assemble_greedy (passages : List Passage) (maxChars : Nat) :
    (assemble passages maxChars).length ≤ maxChars ∧
    ∃ k, k ≤ passages.length ∧ assemble passages maxChars = renderList (passages.take k) ∧
      (k < passages.length → maxChars < (renderList (passages.take (k + 1))).length) := by
  cases passages with
  | nil =>
    refine ⟨by simp [assemble], 0, Nat.le_refl 0, rfl, ?_⟩
    intro h
    simp at h
  | cons p rest =>
    by_cases hfit : (renderPassage p).length ≤ maxChars
    · obtain ⟨j, hj, heq, hlen, hnext⟩ := assembleGo_spec maxChars rest (renderPassage p) hfit
      have hA : assemble (p :: rest) maxChars = extendS (renderPassage p) (rest.take j) := by
        simp only [assemble, if_pos hfit]
        exact heq
      have hR : ∀ u : List Passage, extendS (renderPassage p) u = renderList (p :: u) := by
        intro u
        rw [extendS_renderTail]
        rfl
      constructor
      · rw [hA]
        exact hlen
      · refine ⟨j + 1, Nat.succ_le_succ hj, ?_, ?_⟩
        · rw [hA, List.take_succ_cons, ← hR (rest.take j)]
        · intro hlt
          have hlt2 : j < rest.length := Nat.lt_of_succ_lt_succ hlt
          rw [List.take_succ_cons, ← hR (rest.take (j + 1))]
          exact hnext hlt2
    · constructor
      · simp [assemble, if_neg hfit]
      · refine ⟨0, Nat.zero_le _, ?_, ?_⟩
        · simp only [assemble, if_neg hfit, List.take_zero]
          rfl
        · intro _
          have h1 : maxChars < (renderPassage p).length := Nat.lt_of_not_le hfit
          have h2 : renderList ((p :: rest).take 1) = renderPassage p ++ "" := by
            rw [List.take_succ_cons, List.take_zero]
            rfl
          rw [h2, String.length_append]
          simpa using h1

/-- Concrete instance for C3 at a two-passage list and a budget of 100
characters. -/
theorem assemble_greedy_witness :
    (assemble [pA, pB] 100).length ≤ 100 ∧
    ∃ k, k ≤ ([pA, pB] : List Passage).length ∧
      assemble [pA, pB] 100 = renderList (([pA, pB] : List Passage).take k) ∧
      (k < ([pA, pB] : List Passage).length →
        100 < (renderList (([pA, pB] : List Passage).take (k + 1))).length) :=
  assemble_greedy [pA, pB] 100

/- ### C6: the two empty-output edge cases -/

/-- C6: `assemble` returns the empty string exactly when the passage list is
empty or the first passage alone exceeds the budget (no partial passage is
emitted); in every other case the output is non-empty. -/
theorem assemble_empty_iff (passages : List Passage) (maxChars : Nat) :
    assemble passages maxChars = "" ↔
      passages = [] ∨
        ∃ p rest, passages = p :: rest ∧ maxChars < (renderPassage p).length := by
  cases passages with
  | nil => simp [assemble]
  | cons p rest =>
    constructor
    · intro hE
      by_cases hfit : (renderPassage p).length ≤ maxChars
      · exfalso
        have hA : assembleGo maxChars rest (renderPassage p) = "" := by
          simpa [assemble, if_pos hfit] using hE
        have h1 := length_le_assembleGo maxChars rest (renderPassage p)
        rw [hA] at h1
        have h2 := renderPassage_length_pos p
        have h0 : ("" : String).length = 0 := rfl
        omega
      · exact Or.inr ⟨p, rest, rfl, Nat.lt_of_not_le hfit⟩
    · rintro (h | ⟨p2, rest2, heq, hbig⟩)
      · cases h
      · injection heq with h1 h2
        subst h1
        subst h2
        simp [assemble, if_neg (Nat.not_le_of_lt hbig)]

/-- Concrete instances for C6: the empty list and a budget too small for the
first passage both yield the empty string. -/
theorem assemble_empty_iff_witness :
    assemble [] 1000 = "" ∧ assemble [pA] 3 = "" :=
  ⟨(assemble_empty_iff [] 1000).mpr (Or.inl rfl),
   (assemble_empty_iff [pA] 3).mpr (Or.inr ⟨pA, [], rfl, by decide⟩)⟩

/- ### Helper lemmas: separator joins -/

theorem intercalate_go_append (s : String) (l : List String) :
    ∀ acc1 acc2 : String,
      String.intercalate.go (acc1 ++ acc2) s l = acc1 ++ String.intercalate.go acc2 s l := by
  induction l with
  | nil =>
    intro acc1 acc2
    rfl
  | cons x t ih =>
    intro acc1 acc2
    show String.intercalate.go (acc1 ++ acc2 ++ s ++ x) s t =
      acc1 ++ String.intercalate.go (acc2 ++ s ++ x) s t
    have h : acc1 ++ acc2 ++ s ++ x = acc1 ++ (acc2 ++ s ++ x) := by
      simp [String.append_assoc]
    rw [h]
    exact ih acc1 (acc2 ++ s ++ x)

theorem intercalate_cons_cons (s a b : String) (l : List String) :
    String.intercalate s (a :: b :: l) = a ++ s ++ String.intercalate s (b :: l) := by
  show String.intercalate.go ((a ++ s) ++ b) s l = a ++ s ++ String.intercalate.go b s l
  exact intercalate_go_append s l (a ++ s) b

/- ### C8: the document-combination function -/

/-- C8: for every list of input documents, `_combine_documents` returns
exactly the concatenation, joined by the fixed separator, of every input
document rendered whole through the document prompt in the input order,
with no size budget applied, and the empty list yields the empty string. -/
theorem combine_documents_correct (docs : List Document) :
    _combine_documents docs = combineDocumentsSpec docs ∧ _combine_documents [] = "" := by
  refine ⟨?_, rfl⟩
  induction docs with
  | nil => rfl
  | cons d rest ih =>
    cases rest with
    | nil => rfl
    | cons d2 t =>
      show String.intercalate document_separator
          (format_document d :: format_document d2 :: t.map format_document) =
        format_document d ++ document_separator ++ combineDocumentsSpec (d2 :: t)
      rw [intercalate_cons_cons, ← ih]
      rfl

/- ### C9: the updated-at metadata default -/

/-- C9 counterexample: a record whose `updated_at` is present with value
`"N/A"` does not keep its value; the callback substitutes the epoch
sentinel, so "the record's updated_at value when present" fails. -/
theorem metadata_updated_at_counterexample :
    (⟨some "n", some "u", some "c", some "N/A"⟩ : IngestRecord).updated_at = some "N/A" ∧
    (metadata_func ⟨some "n", some "u", some "c", some "N/A"⟩).updated_at ≠ "N/A" ∧
    (metadata_func ⟨some "n", some "u", some "c", some "N/A"⟩).updated_at = "1970-01-01" :=
  ⟨rfl, by decide, rfl⟩

/-- C9 amended: the passage metadata carries the record's `updated_at` value
when it is present, non-empty and not the literal `"N/A"`; in every other
case (missing, empty, or `"N/A"`) it carries the epoch sentinel
`"1970-01-01"`. -/
theorem metadata_updated_at_amended (record : IngestRecord) :
    (∀ s, record.updated_at = some s → s ≠ "" → s ≠ "N/A" →
      (metadata_func record).updated_at = s) ∧
    ((record.updated_at = none ∨ record.updated_at = some "" ∨
        record.updated_at = some "N/A") →
      (metadata_func record).updated_at = "1970-01-01") := by
  constructor
  · intro s hs h1 h2
    simp [metadata_func, hs, h1, h2]
  · rintro (h | h | h) <;> simp [metadata_func, h]

/-- Concrete instances for C9: a real date is kept, a missing value gets the
epoch sentinel. -/
theorem metadata_updated_at_amended_witness :
    (metadata_func ⟨some "n", some "u", some "c", some "2020-01-01"⟩).updated_at =
      "2020-01-01" ∧
    (metadata_func ⟨some "n", some "u", some "c", none⟩).updated_at = "1970-01-01" :=
  ⟨(metadata_updated_at_amended ⟨some "n", some "u", some "c", some "2020-01-01"⟩).1
      "2020-01-01" rfl (by decide) (by decide),
   (metadata_updated_at_amended ⟨some "n", some "u", some "c", none⟩).2 (Or.inl rfl)⟩

/- ### C10: the text-splitter configuration -/

/-- C10: the notebook's text splitter is configured with a chunk size of 808
tokens, not the 800 stated by its own surrounding markdown, and an overlap
of 400. -/
theorem text_splitter_config :
    text_splitter_chunk_size = 808 ∧ text_splitter_chunk_size ≠ 800 ∧
      text_splitter_chunk_overlap = 400 :=
  ⟨rfl, by decide, rfl⟩
